import Mathlib

set_option linter.unusedSectionVars false
set_option linter.unusedVariables false
set_option synthInstance.maxSize 4000
set_option synthInstance.maxHeartbeats 4000000
set_option maxHeartbeats 1000000

/-!
Verification of `src/cpu/ref_batch_normalization.cpp` (reference batch
normalization, forward and backward kernels).

Embedding conventions:
* buffers are total maps `ℕ → α` from physical offsets to values; the working
  numeric type `data_t` is an arbitrary field `α` (the source instantiates
  `f32`; the spec's data model calls the buffers real-valued);
* the memory-descriptor collaborators `data_d.off`, `scaleshift_d.off`, … are
  parameters (`data_off`, `ss_off`, …) mapping logical indices to offsets;
* the composite `1. / sqrt(·)` of line 70 is a parameter `invsqrt : α → α`,
  instantiated with `fun x => 1 / Real.sqrt x` where a claim speaks about
  actual square roots;
* a triple loop nest `for n … for h … for w` iterates its body once per
  element of `loopNHW N H W`, in lexicographic order; an array store is a
  `Function.update` of the buffer map; the OpenMP `parallel for` over channels
  is a fold over an explicit channel schedule `cs`, with `execute_forward` /
  `execute_backward` fixing the canonical order `List.range C`.
-/

namespace RefBatchNorm

/-- Tensor dimensions: minibatch `N`, channels `C`, height `H`, width `W`
(`conf_.MB()`, `conf_.C()`, `conf_.H()`, `conf_.W()`). -/
structure Dims where
  N : ℕ
  C : ℕ
  H : ℕ
  W : ℕ

/-- Iteration domain of the loop nest `for n (for h (for w …))`, in
lexicographic (loop) order. -/
def loopNHW (N H W : ℕ) : List (ℕ × ℕ × ℕ) :=
  (List.range N) ×ˢ ((List.range H) ×ˢ (List.range W))

variable {α : Type} [Field α]

/-- Mean of channel `c` (lines 56-62): the accumulation
`mean += src[data_d.off(n, c, h, w)]` over the loop nest followed by
`mean /= W * N * H`. -/
def fwdMean (d : Dims) (data_off : ℕ → ℕ → ℕ → ℕ → ℕ) (src : ℕ → α) (c : ℕ) : α :=
  ((loopNHW d.N d.H d.W).map fun p => src (data_off p.1 c p.2.1 p.2.2)).sum /
    ((d.W * d.N * d.H : ℕ) : α)

/-- Sum of squared deviations of channel `c` (lines 64-69):
`data_t m = src[data_d.off(n,c,h,w)] - mean; variance += m*m`. -/
def fwdVarSum (d : Dims) (data_off : ℕ → ℕ → ℕ → ℕ → ℕ) (src : ℕ → α) (c : ℕ) : α :=
  ((loopNHW d.N d.H d.W).map fun p =>
    (fun m => m * m) (src (data_off p.1 c p.2.1 p.2.2) - fwdMean d data_off src c)).sum

/-- Final value of the `variance` accumulator of channel `c` (line 70):
`variance = 1. / sqrt(variance / (W * H * N) + eps)`, i.e. the inverse
standard deviation, with `invsqrt` modelling `1. / sqrt(·)`. -/
def fwdInvstd (d : Dims) (data_off : ℕ → ℕ → ℕ → ℕ → ℕ) (src : ℕ → α)
    (eps : α) (invsqrt : α → α) (c : ℕ) : α :=
  invsqrt (fwdVarSum d data_off src c / ((d.W * d.H * d.N : ℕ) : α) + eps)

/-- Value stored at `dst[d_off]` for logical index `(n, c, h, w)` (lines 72-80):
`scaleshift[scaleshift_d.off(0, c)] * (src[d_off] - mean) * variance +
scaleshift[scaleshift_d.off(1, c)]`. -/
def fwdValue (d : Dims) (data_off : ℕ → ℕ → ℕ → ℕ → ℕ) (ss_off : ℕ → ℕ → ℕ)
    (src ss : ℕ → α) (eps : α) (invsqrt : α → α) (c n h w : ℕ) : α :=
  ss (ss_off 0 c) * (src (data_off n c h w) - fwdMean d data_off src c) *
    fwdInvstd d data_off src eps invsqrt c + ss (ss_off 1 c)

/-- Body of one channel iteration of the forward kernel's parallel loop
(lines 51-81), acting on the pair (dst buffer, ws buffer).  In training mode
(`ws != nullptr`) the final `mean` and `variance` accumulator values live at
`ws_mean[c] = ws[c]` and `ws_variance[c] = ws[C + c]` (lines 47-48, 53-54);
in inference mode they are the transient locals `v_mean`, `v_variance` and the
workspace is untouched.  The normalization pass overwrites the channel's slice
of `dst`. -/
def fwdChannel (d : Dims) (data_off : ℕ → ℕ → ℕ → ℕ → ℕ) (ss_off : ℕ → ℕ → ℕ)
    (src ss : ℕ → α) (eps : α) (invsqrt : α → α) (is_training : Bool)
    (c : ℕ) (st : (ℕ → α) × (ℕ → α)) : (ℕ → α) × (ℕ → α) :=
  let ws1 := if is_training then
      Function.update (Function.update st.2 c (fwdMean d data_off src c))
        (d.C + c) (fwdInvstd d data_off src eps invsqrt c)
    else st.2
  let dst1 := (loopNHW d.N d.H d.W).foldl
    (fun b p => Function.update b (data_off p.1 c p.2.1 p.2.2)
      (fwdValue d data_off ss_off src ss eps invsqrt c p.1 p.2.1 p.2.2)) st.1
  (dst1, ws1)

/-- `ref_batch_normalization_fwd_t::execute_forward` with the channel
iterations of the `#pragma omp parallel for` performed in the explicit order
`cs` (each channel's body runs exactly once under the static schedule; `cs`
records in which order the bodies complete). -/
def execute_forward_sched (d : Dims) (data_off : ℕ → ℕ → ℕ → ℕ → ℕ)
    (ss_off : ℕ → ℕ → ℕ) (src ss : ℕ → α) (eps : α) (invsqrt : α → α)
    (is_training : Bool) (cs : List ℕ) (dst0 ws0 : ℕ → α) :
    (ℕ → α) × (ℕ → α) :=
  cs.foldl
    (fun st c => fwdChannel d data_off ss_off src ss eps invsqrt is_training c st)
    (dst0, ws0)

/-- `ref_batch_normalization_fwd_t::execute_forward` (lines 30-82): result
(dst, ws) of the forward kernel starting from buffer contents `dst0`, `ws0`. -/
def execute_forward (d : Dims) (data_off : ℕ → ℕ → ℕ → ℕ → ℕ)
    (ss_off : ℕ → ℕ → ℕ) (src ss : ℕ → α) (eps : α) (invsqrt : α → α)
    (is_training : Bool) (dst0 ws0 : ℕ → α) : (ℕ → α) × (ℕ → α) :=
  execute_forward_sched d data_off ss_off src ss eps invsqrt is_training
    (List.range d.C) dst0 ws0

/-- `mean = ws_mean[c]` of the backward kernel (lines 106, 111), where
`ws_mean = &ws[workspace_d.off(0)]`. -/
def bwdMean (ws : ℕ → α) (ws_off : ℕ → ℕ) (c : ℕ) : α :=
  ws (ws_off 0 + c)

/-- `variance = ws_variance[c]` of the backward kernel (lines 107, 112), where
`ws_variance = &ws[workspace_d.off(C)]`; holds the inverse standard deviation
stored by the forward pass. -/
def bwdInvstd (d : Dims) (ws : ℕ → α) (ws_off : ℕ → ℕ) (c : ℕ) : α :=
  ws (ws_off d.C + c)

/-- `diff_beta` accumulator of channel `c` (lines 115, 124):
`diff_beta += diff_dst[diff_data_d.off(n, c, h, w)]`. -/
def bwdDiffBeta (d : Dims) (diff_data_off : ℕ → ℕ → ℕ → ℕ → ℕ)
    (ddst : ℕ → α) (c : ℕ) : α :=
  ((loopNHW d.N d.H d.W).map fun p => ddst (diff_data_off p.1 c p.2.1 p.2.2)).sum

/-- Final `diff_gamma` value of channel `c` (lines 114, 122-126):
`diff_gamma += (src[…] - mean) * diff_dst[…]` over the loop nest followed by
`diff_gamma *= variance`. -/
def bwdDiffGamma (d : Dims) (data_off diff_data_off : ℕ → ℕ → ℕ → ℕ → ℕ)
    (ws_off : ℕ → ℕ) (src ddst ws : ℕ → α) (c : ℕ) : α :=
  (((loopNHW d.N d.H d.W).map fun p =>
    (src (data_off p.1 c p.2.1 p.2.2) - bwdMean ws ws_off c) *
      ddst (diff_data_off p.1 c p.2.1 p.2.2)).sum) * bwdInvstd d ws ws_off c

/-- Final value stored at `diff_src[diff_data_d.off(n, c, h, w)]`
(lines 133-141): the two statements
`diff_src[…] = diff_dst[…] - diff_beta/(W*H*N) - (src[…]-mean)*diff_gamma*variance/(W*H*N)`
and `diff_src[…] *= gamma*variance` combined, with
`gamma = scaleshift[scaleshift_d.off(0, c)]` (line 113). -/
def bwdSrcValue (d : Dims) (data_off diff_data_off : ℕ → ℕ → ℕ → ℕ → ℕ)
    (ss_off : ℕ → ℕ → ℕ) (ws_off : ℕ → ℕ) (src ddst ss ws : ℕ → α)
    (c n h w : ℕ) : α :=
  (ddst (diff_data_off n c h w) -
      bwdDiffBeta d diff_data_off ddst c / ((d.W * d.H * d.N : ℕ) : α) -
      (src (data_off n c h w) - bwdMean ws ws_off c) *
        bwdDiffGamma d data_off diff_data_off ws_off src ddst ws c *
        bwdInvstd d ws ws_off c / ((d.W * d.H * d.N : ℕ) : α)) *
    (ss (ss_off 0 c) * bwdInvstd d ws ws_off c)

/-- Body of one channel iteration of the backward kernel's parallel loop
(lines 110-142), acting on the pair (diff_src buffer, optional diff_scaleshift
buffer).  A `none` diff_scaleshift models the null output pointer: the
`if (diff_scaleshift)` writes of lines 128-131 are skipped. -/
def bwdChannel (d : Dims) (data_off diff_data_off : ℕ → ℕ → ℕ → ℕ → ℕ)
    (ss_off dss_off : ℕ → ℕ → ℕ) (ws_off : ℕ → ℕ) (src ddst ss ws : ℕ → α)
    (c : ℕ) (st : (ℕ → α) × Option (ℕ → α)) : (ℕ → α) × Option (ℕ → α) :=
  let dss1 := match st.2 with
    | some b => some (Function.update
        (Function.update b (dss_off 0 c)
          (bwdDiffGamma d data_off diff_data_off ws_off src ddst ws c))
        (dss_off 1 c) (bwdDiffBeta d diff_data_off ddst c))
    | none => none
  let dsrc1 := (loopNHW d.N d.H d.W).foldl
    (fun b p => Function.update b (diff_data_off p.1 c p.2.1 p.2.2)
      (bwdSrcValue d data_off diff_data_off ss_off ws_off src ddst ss ws
        c p.1 p.2.1 p.2.2)) st.1
  (dsrc1, dss1)

/-- `ref_batch_normalization_bwd_t::execute_backward` with the channel
iterations of the `#pragma omp parallel for` performed in the explicit order
`cs`. -/
def execute_backward_sched (d : Dims) (data_off diff_data_off : ℕ → ℕ → ℕ → ℕ → ℕ)
    (ss_off dss_off : ℕ → ℕ → ℕ) (ws_off : ℕ → ℕ) (src ddst ss ws : ℕ → α)
    (cs : List ℕ) (dsrc0 : ℕ → α) (dss0 : Option (ℕ → α)) :
    (ℕ → α) × Option (ℕ → α) :=
  cs.foldl
    (fun st c =>
      bwdChannel d data_off diff_data_off ss_off dss_off ws_off src ddst ss ws c st)
    (dsrc0, dss0)

/-- `ref_batch_normalization_bwd_t::execute_backward` (lines 87-143): result
(diff_src, diff_scaleshift) of the backward kernel starting from buffer
contents `dsrc0` and optional `dss0` (`none` models a null
`diff_scaleshift`). -/
def execute_backward (d : Dims) (data_off diff_data_off : ℕ → ℕ → ℕ → ℕ → ℕ)
    (ss_off dss_off : ℕ → ℕ → ℕ) (ws_off : ℕ → ℕ) (src ddst ss ws : ℕ → α)
    (dsrc0 : ℕ → α) (dss0 : Option (ℕ → α)) : (ℕ → α) × Option (ℕ → α) :=
  execute_backward_sched d data_off diff_data_off ss_off dss_off ws_off
    src ddst ss ws (List.range d.C) dsrc0 dss0

/-- Apply a list of array stores `(offset, value)` to a buffer, in order
(later stores win). -/
def applyWrites (l : List (ℕ × α)) (b : ℕ → α) : ℕ → α :=
  l.foldl (fun f p => Function.update f p.1 p.2) b

/-- All `dst` stores issued by the forward kernel under channel schedule
`cs`, in issue order. -/
def fwdWrites (d : Dims) (data_off : ℕ → ℕ → ℕ → ℕ → ℕ) (ss_off : ℕ → ℕ → ℕ)
    (src ss : ℕ → α) (eps : α) (invsqrt : α → α) (cs : List ℕ) : List (ℕ × α) :=
  cs.flatMap fun c => (loopNHW d.N d.H d.W).map fun p =>
    (data_off p.1 c p.2.1 p.2.2,
      fwdValue d data_off ss_off src ss eps invsqrt c p.1 p.2.1 p.2.2)

/-- All workspace stores issued by the forward kernel under channel schedule
`cs` (empty in inference mode). -/
def fwdWsWrites (d : Dims) (data_off : ℕ → ℕ → ℕ → ℕ → ℕ) (src : ℕ → α)
    (eps : α) (invsqrt : α → α) (is_training : Bool) (cs : List ℕ) :
    List (ℕ × α) :=
  match is_training with
  | true =>
    cs.flatMap fun c =>
      [(c, fwdMean d data_off src c),
        (d.C + c, fwdInvstd d data_off src eps invsqrt c)]
  | false => []

/-- All `diff_src` stores issued by the backward kernel under channel schedule
`cs`, in issue order. -/
def bwdWrites (d : Dims) (data_off diff_data_off : ℕ → ℕ → ℕ → ℕ → ℕ)
    (ss_off : ℕ → ℕ → ℕ) (ws_off : ℕ → ℕ) (src ddst ss ws : ℕ → α)
    (cs : List ℕ) : List (ℕ × α) :=
  cs.flatMap fun c => (loopNHW d.N d.H d.W).map fun p =>
    (diff_data_off p.1 c p.2.1 p.2.2,
      bwdSrcValue d data_off diff_data_off ss_off ws_off src ddst ss ws
        c p.1 p.2.1 p.2.2)

/-- All `diff_scaleshift` stores issued by the backward kernel under channel
schedule `cs` when the output pointer is non-null. -/
def bwdDssWrites (d : Dims) (data_off diff_data_off : ℕ → ℕ → ℕ → ℕ → ℕ)
    (dss_off : ℕ → ℕ → ℕ) (ws_off : ℕ → ℕ) (src ddst ws : ℕ → α)
    (cs : List ℕ) : List (ℕ × α) :=
  cs.flatMap fun c =>
    [(dss_off 0 c, bwdDiffGamma d data_off diff_data_off ws_off src ddst ws c),
      (dss_off 1 c, bwdDiffBeta d diff_data_off ddst c)]

/-- Logical index tuples `(c, n, h, w)` of the whole forward/backward write
domain, channels outermost, in canonical order. -/
def idxCNHW (d : Dims) : List (ℕ × ℕ × ℕ × ℕ) :=
  (List.range d.C) ×ˢ loopNHW d.N d.H d.W

/-- Modelled from the spec: variant of the forward channel body in which the
workspace stores also go through an injected `(2, C)` shape-to-offset mapping
`ws2_off` ("every offset into a buffer is computed via an injected
shape-to-offset mapping", §3), writing `mean[c]` at `ws2_off 0 c` and
`invstd[c]` at `ws2_off 1 c`.  The source kernel has no workspace descriptor
collaborator; this definition exists to compare its hard-coded workspace
layout against the spec's requirement. -/
def fwdChannelSpecWs (d : Dims) (data_off : ℕ → ℕ → ℕ → ℕ → ℕ)
    (ss_off ws2_off : ℕ → ℕ → ℕ) (src ss : ℕ → α) (eps : α) (invsqrt : α → α)
    (is_training : Bool) (c : ℕ) (st : (ℕ → α) × (ℕ → α)) :
    (ℕ → α) × (ℕ → α) :=
  let ws1 := if is_training then
      Function.update (Function.update st.2 (ws2_off 0 c) (fwdMean d data_off src c))
        (ws2_off 1 c) (fwdInvstd d data_off src eps invsqrt c)
    else st.2
  let dst1 := (loopNHW d.N d.H d.W).foldl
    (fun b p => Function.update b (data_off p.1 c p.2.1 p.2.2)
      (fwdValue d data_off ss_off src ss eps invsqrt c p.1 p.2.1 p.2.2)) st.1
  (dst1, ws1)

/-- Modelled from the spec: the forward kernel with workspace accesses routed
through the injected mapping `ws2_off`, as the spec prescribes for every
buffer. -/
def execute_forward_specws (d : Dims) (data_off : ℕ → ℕ → ℕ → ℕ → ℕ)
    (ss_off ws2_off : ℕ → ℕ → ℕ) (src ss : ℕ → α) (eps : α) (invsqrt : α → α)
    (is_training : Bool) (dst0 ws0 : ℕ → α) : (ℕ → α) × (ℕ → α) :=
  (List.range d.C).foldl
    (fun st c =>
      fwdChannelSpecWs d data_off ss_off ws2_off src ss eps invsqrt is_training c st)
    (dst0, ws0)

/-- Row-major physical layout of an `(N, C, H, W)` tensor — a concrete
instance of the injected `data_d.off` collaborator, used by the concrete
test invocations. -/
def rowMajor4 (d : Dims) (n c h w : ℕ) : ℕ :=
  ((n * d.C + c) * d.H + h) * d.W + w

/-- Row-major physical layout of a `(2, C)` tensor — a concrete instance of
the injected `scaleshift_d.off` / `diff_scaleshift_d.off` collaborator. -/
def rowMajor2 (C r c : ℕ) : ℕ :=
  r * C + c

/-- A buffer holding the elements of `l` at offsets `0, 1, …` (and `0`
elsewhere). -/
def bufOfList (l : List α) : ℕ → α :=
  fun i => l.getD i 0

/-- Validity of an injected `(N, C, H, W)` offset collaborator: distinct
in-range logical indices `(c, n, h, w)` map to distinct physical offsets
(every memory descriptor of a shape-conformant buffer satisfies this). -/
abbrev OffInj4 (d : Dims) (off : ℕ → ℕ → ℕ → ℕ → ℕ) : Prop :=
  ∀ q₁ ∈ idxCNHW d, ∀ q₂ ∈ idxCNHW d,
    off q₁.2.1 q₁.1 q₁.2.2.1 q₁.2.2.2 = off q₂.2.1 q₂.1 q₂.2.2.1 q₂.2.2.2 →
      q₁ = q₂

/-- Validity of an injected `(2, C)` offset collaborator. -/
abbrev OffInj2 (C : ℕ) (off : ℕ → ℕ → ℕ) : Prop :=
  ∀ r₁ < 2, ∀ c₁ < C, ∀ r₂ < 2, ∀ c₂ < C,
    off r₁ c₁ = off r₂ c₂ → r₁ = r₂ ∧ c₁ = c₂

/-! ### Generic lemmas about lists of array stores -/

theorem applyWrites_cons (p : ℕ × α) (l : List (ℕ × α)) (b : ℕ → α) :
    applyWrites (p :: l) b = applyWrites l (Function.update b p.1 p.2) :=
  rfl

theorem applyWrites_append (l₁ l₂ : List (ℕ × α)) (b : ℕ → α) :
    applyWrites (l₁ ++ l₂) b = applyWrites l₂ (applyWrites l₁ b) :=
  List.foldl_append ..

theorem applyWrites_not_mem (l : List (ℕ × α)) (b : ℕ → α) (k : ℕ)
    (hk : k ∉ l.map Prod.fst) : applyWrites l b k = b k := by
  induction l generalizing b with
  | nil => rfl
  | cons p t ih =>
    simp only [List.map_cons, List.mem_cons, not_or] at hk
    rw [applyWrites_cons, ih _ hk.2, Function.update_noteq hk.1]

theorem applyWrites_mem_nodup (l : List (ℕ × α)) (b : ℕ → α) (k : ℕ) (v : α)
    (hmem : (k, v) ∈ l) (hnd : (l.map Prod.fst).Nodup) : applyWrites l b k = v := by
  induction l generalizing b with
  | nil => cases hmem
  | cons p t ih =>
    simp only [List.map_cons, List.nodup_cons] at hnd
    rcases List.mem_cons.mp hmem with h | h
    · subst h
      rw [applyWrites_cons, applyWrites_not_mem _ _ _ hnd.1, Function.update_same]
    · rw [applyWrites_cons]
      exact ih _ h hnd.2

theorem applyWrites_perm (l l' : List (ℕ × α)) (b : ℕ → α) (hp : l.Perm l')
    (hnd : (l.map Prod.fst).Nodup) : applyWrites l b = applyWrites l' b := by
  funext k
  by_cases hk : k ∈ l.map Prod.fst
  · rcases List.mem_map.mp hk with ⟨p, hpmem, hpk⟩
    have hmem : (k, p.2) ∈ l := by
      have : p = (k, p.2) := by
        rw [← hpk]
      rwa [this] at hpmem
    rw [applyWrites_mem_nodup l b k p.2 hmem hnd,
      applyWrites_mem_nodup l' b k p.2 (hp.mem_iff.mp hmem)
        (((hp.map Prod.fst).nodup_iff).mp hnd)]
  · rw [applyWrites_not_mem l b k hk,
      applyWrites_not_mem l' b k (fun hmem => hk ((hp.map Prod.fst).mem_iff.mpr hmem))]

/-! ### The iteration domain -/

theorem mem_loopNHW {N H W : ℕ} {p : ℕ × ℕ × ℕ} :
    p ∈ loopNHW N H W ↔ p.1 < N ∧ p.2.1 < H ∧ p.2.2 < W := by
  obtain ⟨n, h, w⟩ := p
  simp [loopNHW]

theorem nodup_loopNHW (N H W : ℕ) : (loopNHW N H W).Nodup :=
  List.Nodup.product (List.nodup_range N)
    (List.Nodup.product (List.nodup_range H) (List.nodup_range W))

theorem mem_idxCNHW {d : Dims} {q : ℕ × ℕ × ℕ × ℕ} :
    q ∈ idxCNHW d ↔ q.1 < d.C ∧ q.2.1 < d.N ∧ q.2.2.1 < d.H ∧ q.2.2.2 < d.W := by
  obtain ⟨c, n, h, w⟩ := q
  simp [idxCNHW, mem_loopNHW]

theorem nodup_idxCNHW (d : Dims) : (idxCNHW d).Nodup :=
  List.Nodup.product (List.nodup_range d.C) (nodup_loopNHW d.N d.H d.W)

/-! ### Decomposition of the kernels into their store lists -/

theorem fwdChannel_fst (d : Dims) (data_off : ℕ → ℕ → ℕ → ℕ → ℕ)
    (ss_off : ℕ → ℕ → ℕ) (src ss : ℕ → α) (eps : α) (invsqrt : α → α)
    (tr : Bool) (c : ℕ) (st : (ℕ → α) × (ℕ → α)) :
    (fwdChannel d data_off ss_off src ss eps invsqrt tr c st).1 =
      applyWrites ((loopNHW d.N d.H d.W).map fun p =>
        (data_off p.1 c p.2.1 p.2.2,
          fwdValue d data_off ss_off src ss eps invsqrt c p.1 p.2.1 p.2.2)) st.1 := by
  rw [applyWrites, List.foldl_map]
  rfl

theorem fwdChannel_snd_true (d : Dims) (data_off : ℕ → ℕ → ℕ → ℕ → ℕ)
    (ss_off : ℕ → ℕ → ℕ) (src ss : ℕ → α) (eps : α) (invsqrt : α → α)
    (c : ℕ) (st : (ℕ → α) × (ℕ → α)) :
    (fwdChannel d data_off ss_off src ss eps invsqrt true c st).2 =
      applyWrites [(c, fwdMean d data_off src c),
        (d.C + c, fwdInvstd d data_off src eps invsqrt c)] st.2 :=
  rfl

theorem bwdChannel_fst (d : Dims) (data_off diff_data_off : ℕ → ℕ → ℕ → ℕ → ℕ)
    (ss_off dss_off : ℕ → ℕ → ℕ) (ws_off : ℕ → ℕ) (src ddst ss ws : ℕ → α)
    (c : ℕ) (st : (ℕ → α) × Option (ℕ → α)) :
    (bwdChannel d data_off diff_data_off ss_off dss_off ws_off
        src ddst ss ws c st).1 =
      applyWrites ((loopNHW d.N d.H d.W).map fun p =>
        (diff_data_off p.1 c p.2.1 p.2.2,
          bwdSrcValue d data_off diff_data_off ss_off ws_off src ddst ss ws
            c p.1 p.2.1 p.2.2)) st.1 := by
  rw [applyWrites, List.foldl_map]
  rfl

theorem execute_forward_sched_eq (d : Dims) (data_off : ℕ → ℕ → ℕ → ℕ → ℕ)
    (ss_off : ℕ → ℕ → ℕ) (src ss : ℕ → α) (eps : α) (invsqrt : α → α)
    (tr : Bool) (cs : List ℕ) (dst0 ws0 : ℕ → α) :
    execute_forward_sched d data_off ss_off src ss eps invsqrt tr cs dst0 ws0 =
      (applyWrites (fwdWrites d data_off ss_off src ss eps invsqrt cs) dst0,
        applyWrites (fwdWsWrites d data_off src eps invsqrt tr cs) ws0) := by
  induction cs generalizing dst0 ws0 with
  | nil => cases tr <;> rfl
  | cons c cs ih =>
    have hstep :
        execute_forward_sched d data_off ss_off src ss eps invsqrt tr (c :: cs) dst0 ws0 =
          execute_forward_sched d data_off ss_off src ss eps invsqrt tr cs
            (fwdChannel d data_off ss_off src ss eps invsqrt tr c (dst0, ws0)).1
            (fwdChannel d data_off ss_off src ss eps invsqrt tr c (dst0, ws0)).2 := rfl
    rw [hstep, ih]
    simp only [Prod.mk.injEq]
    constructor
    · rw [fwdChannel_fst, ← applyWrites_append]
      simp only [fwdWrites]
      rw [List.flatMap_cons]
    · cases tr with
      | false => rfl
      | true =>
        rw [fwdChannel_snd_true, ← applyWrites_append]
        simp only [fwdWsWrites]
        rw [List.flatMap_cons]

theorem execute_backward_sched_eq (d : Dims)
    (data_off diff_data_off : ℕ → ℕ → ℕ → ℕ → ℕ) (ss_off dss_off : ℕ → ℕ → ℕ)
    (ws_off : ℕ → ℕ) (src ddst ss ws : ℕ → α) (cs : List ℕ) (dsrc0 : ℕ → α)
    (dss0 : Option (ℕ → α)) :
    execute_backward_sched d data_off diff_data_off ss_off dss_off ws_off
        src ddst ss ws cs dsrc0 dss0 =
      (applyWrites (bwdWrites d data_off diff_data_off ss_off ws_off src ddst ss ws cs) dsrc0,
        Option.map
          (applyWrites (bwdDssWrites d data_off diff_data_off dss_off ws_off src ddst ws cs))
          dss0) := by
  induction cs generalizing dsrc0 dss0 with
  | nil => cases dss0 <;> rfl
  | cons c cs ih =>
    have hstep :
        execute_backward_sched d data_off diff_data_off ss_off dss_off ws_off
            src ddst ss ws (c :: cs) dsrc0 dss0 =
          execute_backward_sched d data_off diff_data_off ss_off dss_off ws_off
            src ddst ss ws cs
            (bwdChannel d data_off diff_data_off ss_off dss_off ws_off
              src ddst ss ws c (dsrc0, dss0)).1
            (bwdChannel d data_off diff_data_off ss_off dss_off ws_off
              src ddst ss ws c (dsrc0, dss0)).2 := rfl
    rw [hstep, ih]
    simp only [Prod.mk.injEq]
    constructor
    · rw [bwdChannel_fst, ← applyWrites_append]
      simp only [bwdWrites]
      rw [List.flatMap_cons]
    · cases dss0 with
      | none => rfl
      | some b => rfl

/-! ### Store offsets are distinct under valid descriptors -/

theorem idx_keys_nodup (d : Dims) (off : ℕ → ℕ → ℕ → ℕ → ℕ)
    (hinj : OffInj4 d off) :
    ((idxCNHW d).map fun q => off q.2.1 q.1 q.2.2.1 q.2.2.2).Nodup := by
  exact List.Nodup.map_on hinj (nodup_idxCNHW d)

theorem fwdWrites_keys (d : Dims) (data_off : ℕ → ℕ → ℕ → ℕ → ℕ)
    (ss_off : ℕ → ℕ → ℕ) (src ss : ℕ → α) (eps : α) (invsqrt : α → α) :
    (fwdWrites d data_off ss_off src ss eps invsqrt (List.range d.C)).map Prod.fst =
      (idxCNHW d).map fun q => data_off q.2.1 q.1 q.2.2.1 q.2.2.2 := by
  simp only [fwdWrites, idxCNHW, SProd.sprod, List.product, List.map_flatMap,
    List.map_map]
  rfl

theorem bwdWrites_keys (d : Dims) (data_off diff_data_off : ℕ → ℕ → ℕ → ℕ → ℕ)
    (ss_off : ℕ → ℕ → ℕ) (ws_off : ℕ → ℕ) (src ddst ss ws : ℕ → α) :
    (bwdWrites d data_off diff_data_off ss_off ws_off src ddst ss ws
        (List.range d.C)).map Prod.fst =
      (idxCNHW d).map fun q => diff_data_off q.2.1 q.1 q.2.2.1 q.2.2.2 := by
  simp only [bwdWrites, idxCNHW, SProd.sprod, List.product, List.map_flatMap,
    List.map_map]
  rfl

theorem fwdWsWrites_keys_nodup (d : Dims) (data_off : ℕ → ℕ → ℕ → ℕ → ℕ)
    (src : ℕ → α) (eps : α) (invsqrt : α → α) :
    ((fwdWsWrites d data_off src eps invsqrt true (List.range d.C)).map
      Prod.fst).Nodup := by
  have hkeys : (fwdWsWrites d data_off src eps invsqrt true (List.range d.C)).map
      Prod.fst = (List.range d.C).flatMap fun c => [c, d.C + c] := by
    simp only [fwdWsWrites, List.map_flatMap]
    rfl
  rw [hkeys]
  refine List.nodup_flatMap.2 ⟨?_, ?_⟩
  · intro c hc
    rw [List.mem_range] at hc
    simp only [List.nodup_cons, List.mem_singleton, List.not_mem_nil,
      not_false_iff, List.nodup_nil, and_true]
    omega
  · refine (List.nodup_range d.C).pairwise_of_forall_ne ?_
    intro a ha b hb hab
    rw [List.mem_range] at ha hb
    intro x hx hy
    simp only [List.mem_cons, List.mem_singleton, List.not_mem_nil, or_false] at hx hy
    omega

theorem bwdDssWrites_keys_nodup (d : Dims)
    (data_off diff_data_off : ℕ → ℕ → ℕ → ℕ → ℕ) (dss_off : ℕ → ℕ → ℕ)
    (ws_off : ℕ → ℕ) (src ddst ws : ℕ → α) (hinj : OffInj2 d.C dss_off) :
    ((bwdDssWrites d data_off diff_data_off dss_off ws_off src ddst ws
      (List.range d.C)).map Prod.fst).Nodup := by
  have hkeys : (bwdDssWrites d data_off diff_data_off dss_off ws_off src ddst ws
      (List.range d.C)).map Prod.fst =
      (List.range d.C).flatMap fun c => [dss_off 0 c, dss_off 1 c] := by
    simp only [bwdDssWrites, List.map_flatMap]
    rfl
  rw [hkeys]
  refine List.nodup_flatMap.2 ⟨?_, ?_⟩
  · intro c hc
    rw [List.mem_range] at hc
    simp only [List.nodup_cons, List.mem_singleton, List.not_mem_nil,
      not_false_iff, List.nodup_nil, and_true]
    intro h
    exact absurd ((hinj 0 (by omega) c hc 1 (by omega) c hc h).1) (by omega)
  · refine (List.nodup_range d.C).pairwise_of_forall_ne ?_
    intro a ha b hb hab
    rw [List.mem_range] at ha hb
    intro x hx hy
    simp only [List.mem_cons, List.mem_singleton, List.not_mem_nil, or_false] at hx hy
    rcases hx with rfl | rfl <;> rcases hy with h | h
    · exact hab (hinj 0 (by omega) a ha 0 (by omega) b hb h).2
    · exact absurd (hinj 0 (by omega) a ha 1 (by omega) b hb h).1 (by omega)
    · exact absurd (hinj 1 (by omega) a ha 0 (by omega) b hb h).1 (by omega)
    · exact hab (hinj 1 (by omega) a ha 1 (by omega) b hb h).2

/-! ### Per-location characterization of the forward kernel -/

theorem execute_forward_fst (d : Dims) (data_off : ℕ → ℕ → ℕ → ℕ → ℕ)
    (ss_off : ℕ → ℕ → ℕ) (src ss : ℕ → α) (eps : α) (invsqrt : α → α)
    (tr : Bool) (dst0 ws0 : ℕ → α) (hinj : OffInj4 d data_off) {n c h w : ℕ}
    (hn : n < d.N) (hc : c < d.C) (hh : h < d.H) (hw : w < d.W) :
    (execute_forward d data_off ss_off src ss eps invsqrt tr dst0 ws0).1
        (data_off n c h w) =
      fwdValue d data_off ss_off src ss eps invsqrt c n h w := by
  rw [execute_forward, execute_forward_sched_eq]
  refine applyWrites_mem_nodup _ _ _ _ ?_ ?_
  · simp only [fwdWrites, List.mem_flatMap, List.mem_map]
    exact ⟨c, List.mem_range.mpr hc, ⟨(n, h, w), mem_loopNHW.mpr ⟨hn, hh, hw⟩, rfl⟩⟩
  · rw [fwdWrites_keys]
    exact idx_keys_nodup d data_off hinj

theorem execute_forward_dst_not_touched (d : Dims)
    (data_off : ℕ → ℕ → ℕ → ℕ → ℕ) (ss_off : ℕ → ℕ → ℕ) (src ss : ℕ → α)
    (eps : α) (invsqrt : α → α) (tr : Bool) (dst0 ws0 : ℕ → α) {i : ℕ}
    (hi : ∀ n < d.N, ∀ c < d.C, ∀ h < d.H, ∀ w < d.W, i ≠ data_off n c h w) :
    (execute_forward d data_off ss_off src ss eps invsqrt tr dst0 ws0).1 i =
      dst0 i := by
  rw [execute_forward, execute_forward_sched_eq]
  refine applyWrites_not_mem _ _ _ ?_
  rw [fwdWrites_keys]
  intro hmem
  rcases List.mem_map.mp hmem with ⟨q, hq, hqi⟩
  obtain ⟨c, n, h, w⟩ := q
  rw [mem_idxCNHW] at hq
  exact hi n hq.2.1 c hq.1 h hq.2.2.1 w hq.2.2.2 hqi.symm

theorem execute_forward_ws_mean (d : Dims) (data_off : ℕ → ℕ → ℕ → ℕ → ℕ)
    (ss_off : ℕ → ℕ → ℕ) (src ss : ℕ → α) (eps : α) (invsqrt : α → α)
    (dst0 ws0 : ℕ → α) {c : ℕ} (hc : c < d.C) :
    (execute_forward d data_off ss_off src ss eps invsqrt true dst0 ws0).2 c =
      fwdMean d data_off src c := by
  rw [execute_forward, execute_forward_sched_eq]
  refine applyWrites_mem_nodup _ _ _ _ ?_
    (fwdWsWrites_keys_nodup d data_off src eps invsqrt)
  simp only [fwdWsWrites, List.mem_flatMap]
  exact ⟨c, List.mem_range.mpr hc, by simp⟩

theorem execute_forward_ws_invstd (d : Dims) (data_off : ℕ → ℕ → ℕ → ℕ → ℕ)
    (ss_off : ℕ → ℕ → ℕ) (src ss : ℕ → α) (eps : α) (invsqrt : α → α)
    (dst0 ws0 : ℕ → α) {c : ℕ} (hc : c < d.C) :
    (execute_forward d data_off ss_off src ss eps invsqrt true dst0 ws0).2
        (d.C + c) =
      fwdInvstd d data_off src eps invsqrt c := by
  rw [execute_forward, execute_forward_sched_eq]
  refine applyWrites_mem_nodup _ _ _ _ ?_
    (fwdWsWrites_keys_nodup d data_off src eps invsqrt)
  simp only [fwdWsWrites, List.mem_flatMap]
  exact ⟨c, List.mem_range.mpr hc, by simp⟩

theorem execute_forward_ws_frame (d : Dims) (data_off : ℕ → ℕ → ℕ → ℕ → ℕ)
    (ss_off : ℕ → ℕ → ℕ) (src ss : ℕ → α) (eps : α) (invsqrt : α → α)
    (dst0 ws0 : ℕ → α) {i : ℕ} (hi : ∀ c < d.C, i ≠ c ∧ i ≠ d.C + c) :
    (execute_forward d data_off ss_off src ss eps invsqrt true dst0 ws0).2 i =
      ws0 i := by
  rw [execute_forward, execute_forward_sched_eq]
  refine applyWrites_not_mem _ _ _ ?_
  have hkeys : (fwdWsWrites d data_off src eps invsqrt true (List.range d.C)).map
      Prod.fst = (List.range d.C).flatMap fun c => [c, d.C + c] := by
    simp only [fwdWsWrites, List.map_flatMap]
    rfl
  rw [hkeys]
  intro hmem
  rcases List.mem_flatMap.mp hmem with ⟨c, hcmem, hcmem2⟩
  rw [List.mem_range] at hcmem
  simp only [List.mem_cons, List.mem_singleton, List.not_mem_nil, or_false] at hcmem2
  rcases hcmem2 with rfl | rfl
  · exact (hi _ hcmem).1 rfl
  · exact (hi _ hcmem).2 rfl

theorem execute_forward_ws_inference (d : Dims) (data_off : ℕ → ℕ → ℕ → ℕ → ℕ)
    (ss_off : ℕ → ℕ → ℕ) (src ss : ℕ → α) (eps : α) (invsqrt : α → α)
    (dst0 ws0 : ℕ → α) :
    (execute_forward d data_off ss_off src ss eps invsqrt false dst0 ws0).2 =
      ws0 := by
  rw [execute_forward, execute_forward_sched_eq]
  rfl

theorem execute_forward_fst_mode (d : Dims) (data_off : ℕ → ℕ → ℕ → ℕ → ℕ)
    (ss_off : ℕ → ℕ → ℕ) (src ss : ℕ → α) (eps : α) (invsqrt : α → α)
    (tr tr' : Bool) (dst0 ws0 : ℕ → α) :
    (execute_forward d data_off ss_off src ss eps invsqrt tr dst0 ws0).1 =
      (execute_forward d data_off ss_off src ss eps invsqrt tr' dst0 ws0).1 := by
  rw [execute_forward, execute_forward_sched_eq, execute_forward,
    execute_forward_sched_eq]

/-! ### Per-location characterization of the backward kernel -/

theorem execute_backward_fst (d : Dims)
    (data_off diff_data_off : ℕ → ℕ → ℕ → ℕ → ℕ) (ss_off dss_off : ℕ → ℕ → ℕ)
    (ws_off : ℕ → ℕ) (src ddst ss ws : ℕ → α) (dsrc0 : ℕ → α)
    (dss0 : Option (ℕ → α)) (hinj : OffInj4 d diff_data_off) {n c h w : ℕ}
    (hn : n < d.N) (hc : c < d.C) (hh : h < d.H) (hw : w < d.W) :
    (execute_backward d data_off diff_data_off ss_off dss_off ws_off
        src ddst ss ws dsrc0 dss0).1 (diff_data_off n c h w) =
      bwdSrcValue d data_off diff_data_off ss_off ws_off src ddst ss ws c n h w := by
  rw [execute_backward, execute_backward_sched_eq]
  refine applyWrites_mem_nodup _ _ _ _ ?_ ?_
  · simp only [bwdWrites, List.mem_flatMap, List.mem_map]
    exact ⟨c, List.mem_range.mpr hc, ⟨(n, h, w), mem_loopNHW.mpr ⟨hn, hh, hw⟩, rfl⟩⟩
  · rw [bwdWrites_keys]
    exact idx_keys_nodup d diff_data_off hinj

theorem execute_backward_fst_dss_indep (d : Dims)
    (data_off diff_data_off : ℕ → ℕ → ℕ → ℕ → ℕ) (ss_off dss_off : ℕ → ℕ → ℕ)
    (ws_off : ℕ → ℕ) (src ddst ss ws : ℕ → α) (dsrc0 : ℕ → α)
    (dss0 dss0' : Option (ℕ → α)) :
    (execute_backward d data_off diff_data_off ss_off dss_off ws_off
        src ddst ss ws dsrc0 dss0).1 =
      (execute_backward d data_off diff_data_off ss_off dss_off ws_off
        src ddst ss ws dsrc0 dss0').1 := by
  rw [execute_backward, execute_backward_sched_eq, execute_backward,
    execute_backward_sched_eq]

theorem execute_backward_snd_none (d : Dims)
    (data_off diff_data_off : ℕ → ℕ → ℕ → ℕ → ℕ) (ss_off dss_off : ℕ → ℕ → ℕ)
    (ws_off : ℕ → ℕ) (src ddst ss ws : ℕ → α) (dsrc0 : ℕ → α) :
    (execute_backward d data_off diff_data_off ss_off dss_off ws_off
        src ddst ss ws dsrc0 none).2 = none := by
  rw [execute_backward, execute_backward_sched_eq]
  rfl

theorem execute_backward_snd_some (d : Dims)
    (data_off diff_data_off : ℕ → ℕ → ℕ → ℕ → ℕ) (ss_off dss_off : ℕ → ℕ → ℕ)
    (ws_off : ℕ → ℕ) (src ddst ss ws : ℕ → α) (dsrc0 b0 : ℕ → α) :
    (execute_backward d data_off diff_data_off ss_off dss_off ws_off
        src ddst ss ws dsrc0 (some b0)).2 =
      some (applyWrites
        (bwdDssWrites d data_off diff_data_off dss_off ws_off src ddst ws
          (List.range d.C)) b0) := by
  rw [execute_backward, execute_backward_sched_eq]
  rfl

theorem bwdDss_gamma (d : Dims) (data_off diff_data_off : ℕ → ℕ → ℕ → ℕ → ℕ)
    (dss_off : ℕ → ℕ → ℕ) (ws_off : ℕ → ℕ) (src ddst ws : ℕ → α) (b0 : ℕ → α)
    (hinj2 : OffInj2 d.C dss_off) {c : ℕ} (hc : c < d.C) :
    applyWrites (bwdDssWrites d data_off diff_data_off dss_off ws_off src ddst ws
        (List.range d.C)) b0 (dss_off 0 c) =
      bwdDiffGamma d data_off diff_data_off ws_off src ddst ws c := by
  refine applyWrites_mem_nodup _ _ _ _ ?_
    (bwdDssWrites_keys_nodup d data_off diff_data_off dss_off ws_off src ddst ws hinj2)
  simp only [bwdDssWrites, List.mem_flatMap]
  exact ⟨c, List.mem_range.mpr hc, by simp⟩

theorem bwdDss_beta (d : Dims) (data_off diff_data_off : ℕ → ℕ → ℕ → ℕ → ℕ)
    (dss_off : ℕ → ℕ → ℕ) (ws_off : ℕ → ℕ) (src ddst ws : ℕ → α) (b0 : ℕ → α)
    (hinj2 : OffInj2 d.C dss_off) {c : ℕ} (hc : c < d.C) :
    applyWrites (bwdDssWrites d data_off diff_data_off dss_off ws_off src ddst ws
        (List.range d.C)) b0 (dss_off 1 c) =
      bwdDiffBeta d diff_data_off ddst c := by
  refine applyWrites_mem_nodup _ _ _ _ ?_
    (bwdDssWrites_keys_nodup d data_off diff_data_off dss_off ws_off src ddst ws hinj2)
  simp only [bwdDssWrites, List.mem_flatMap]
  exact ⟨c, List.mem_range.mpr hc, by simp⟩

/-! ### Claims -/

/-- C1: for every forward invocation over a field, with a valid data
descriptor and N·H·W > 0, every output element satisfies
`dst[n,c,h,w] = scale[c] · (src[n,c,h,w] - mean[c]) · invstd[c] + shift[c]`,
where scale and shift are rows 0 and 1 of scaleshift; in particular for
N=2, C=1, H=1, W=2, src = [1,3,5,7], scale=1, shift=0, eps=0 the output is
`(src - 4) / √5` elementwise. -/
theorem claim_C1 :
    (∀ (α : Type) [Field α], ∀ (d : Dims)
        (data_off : ℕ → ℕ → ℕ → ℕ → ℕ) (ss_off : ℕ → ℕ → ℕ)
        (src ss dst0 ws0 : ℕ → α) (eps : α) (invsqrt : α → α) (tr : Bool),
      OffInj4 d data_off → 0 < d.N * d.H * d.W →
        ∀ n < d.N, ∀ c < d.C, ∀ h < d.H, ∀ w < d.W,
          (execute_forward d data_off ss_off src ss eps invsqrt tr dst0 ws0).1
              (data_off n c h w) =
            ss (ss_off 0 c) *
                (src (data_off n c h w) - fwdMean d data_off src c) *
                fwdInvstd d data_off src eps invsqrt c +
              ss (ss_off 1 c)) ∧
    (∀ i < 4,
      (execute_forward ⟨2, 1, 1, 2⟩ (rowMajor4 ⟨2, 1, 1, 2⟩) (rowMajor2 1)
          (bufOfList [1, 3, 5, 7]) (bufOfList [1, 0]) 0
          (fun x => 1 / Real.sqrt x) false (fun _ => 0) (fun _ => 0)).1 i =
        (bufOfList [1, 3, 5, 7] i - 4) / Real.sqrt 5) := by
  have hA : ∀ (α : Type) [Field α], ∀ (d : Dims)
      (data_off : ℕ → ℕ → ℕ → ℕ → ℕ) (ss_off : ℕ → ℕ → ℕ)
      (src ss dst0 ws0 : ℕ → α) (eps : α) (invsqrt : α → α) (tr : Bool),
      OffInj4 d data_off → 0 < d.N * d.H * d.W →
        ∀ n < d.N, ∀ c < d.C, ∀ h < d.H, ∀ w < d.W,
          (execute_forward d data_off ss_off src ss eps invsqrt tr dst0 ws0).1
              (data_off n c h w) =
            ss (ss_off 0 c) *
                (src (data_off n c h w) - fwdMean d data_off src c) *
                fwdInvstd d data_off src eps invsqrt c +
              ss (ss_off 1 c) := by
    intro α instF d data_off ss_off src ss dst0 ws0 eps invsqrt tr hinj hpos
    intro n hn c hc h hh w hw
    rw [execute_forward_fst d data_off ss_off src ss eps invsqrt tr dst0 ws0
      hinj hn hc hh hw]
    rfl
  refine ⟨hA, ?_⟩
  have hmean : fwdMean ⟨2, 1, 1, 2⟩ (rowMajor4 ⟨2, 1, 1, 2⟩)
      (bufOfList [1, 3, 5, 7] : ℕ → ℝ) 0 = 4 := by
    norm_num [fwdMean, loopNHW, SProd.sprod, List.product, List.range_succ,
      bufOfList, rowMajor4]
  have hstd : fwdInvstd ⟨2, 1, 1, 2⟩ (rowMajor4 ⟨2, 1, 1, 2⟩)
      (bufOfList [1, 3, 5, 7] : ℕ → ℝ) 0 (fun x => 1 / Real.sqrt x) 0 =
      1 / Real.sqrt 5 := by
    have hvar : fwdVarSum ⟨2, 1, 1, 2⟩ (rowMajor4 ⟨2, 1, 1, 2⟩)
        (bufOfList [1, 3, 5, 7] : ℕ → ℝ) 0 = 20 := by
      norm_num [fwdVarSum, hmean, loopNHW, SProd.sprod, List.product,
        List.range_succ, bufOfList, rowMajor4]
    rw [fwdInvstd, hvar]
    norm_num
  have hinj : OffInj4 ⟨2, 1, 1, 2⟩ (rowMajor4 ⟨2, 1, 1, 2⟩) := by decide
  have key : ∀ n < 2, ∀ w < 2,
      (execute_forward ⟨2, 1, 1, 2⟩ (rowMajor4 ⟨2, 1, 1, 2⟩) (rowMajor2 1)
          (bufOfList [1, 3, 5, 7]) (bufOfList [1, 0]) 0
          (fun x => 1 / Real.sqrt x) false (fun _ => 0) (fun _ => 0)).1
        (rowMajor4 ⟨2, 1, 1, 2⟩ n 0 0 w) =
      (bufOfList [1, 3, 5, 7] (rowMajor4 ⟨2, 1, 1, 2⟩ n 0 0 w) - 4) /
        Real.sqrt 5 := by
    intro n hn w hw
    rw [hA ℝ ⟨2, 1, 1, 2⟩ (rowMajor4 ⟨2, 1, 1, 2⟩) (rowMajor2 1)
      (bufOfList [1, 3, 5, 7]) (bufOfList [1, 0]) (fun _ => 0) (fun _ => 0) 0
      (fun x => 1 / Real.sqrt x) false hinj (by norm_num)
      n hn 0 (by norm_num) 0 (by norm_num) w hw, hmean, hstd]
    norm_num [bufOfList, rowMajor2]
    ring
  intro i hi
  interval_cases i
  · exact key 0 (by norm_num) 0 (by norm_num)
  · exact key 0 (by norm_num) 1 (by norm_num)
  · exact key 1 (by norm_num) 0 (by norm_num)
  · exact key 1 (by norm_num) 1 (by norm_num)

theorem claim_C1_witness :
    (execute_forward ⟨1, 1, 1, 1⟩ (rowMajor4 ⟨1, 1, 1, 1⟩) (rowMajor2 1)
        (fun _ => (0 : ℚ)) (fun _ => 0) 0 (fun x => x) false
        (fun _ => 0) (fun _ => 0)).1 (rowMajor4 ⟨1, 1, 1, 1⟩ 0 0 0 0) = 0 := by
  rw [claim_C1.1 ℚ ⟨1, 1, 1, 1⟩ (rowMajor4 ⟨1, 1, 1, 1⟩) (rowMajor2 1)
    (fun _ => 0) (fun _ => 0) (fun _ => 0) (fun _ => 0) 0 (fun x => x) false
    (by decide) (by decide) 0 (by decide) 0 (by decide) 0 (by decide) 0 (by decide)]
  ring

/-- C2: for every forward invocation over ℝ with `1/sqrt` as the stored
statistic's square-root kernel, N·H·W > 0 and eps ≥ 0, the training-mode
workspace receives `mean[c] = (1/(N·H·W)) · Σ src` in row 0 and the inverse
standard deviation `1 / sqrt((1/(N·H·W)) · Σ (src - mean[c])² + eps)` — not
the raw variance — in row 1. -/
theorem claim_C2 (d : Dims) (data_off : ℕ → ℕ → ℕ → ℕ → ℕ)
    (ss_off : ℕ → ℕ → ℕ) (src ss dst0 ws0 : ℕ → ℝ) (eps : ℝ)
    (hpos : 0 < d.N * d.H * d.W) (heps : 0 ≤ eps) (c : ℕ) (hc : c < d.C) :
    (execute_forward d data_off ss_off src ss eps (fun x => 1 / Real.sqrt x)
        true dst0 ws0).2 c =
      1 / ((d.N * d.H * d.W : ℕ) : ℝ) *
        ((loopNHW d.N d.H d.W).map fun p =>
          src (data_off p.1 c p.2.1 p.2.2)).sum ∧
    (execute_forward d data_off ss_off src ss eps (fun x => 1 / Real.sqrt x)
        true dst0 ws0).2 (d.C + c) =
      1 / Real.sqrt (1 / ((d.N * d.H * d.W : ℕ) : ℝ) *
        ((loopNHW d.N d.H d.W).map fun p =>
          (src (data_off p.1 c p.2.1 p.2.2) - fwdMean d data_off src c) ^ 2).sum +
        eps) := by
  constructor
  · rw [execute_forward_ws_mean d data_off ss_off src ss eps _ dst0 ws0 hc,
      fwdMean]
    push_cast
    ring
  · rw [execute_forward_ws_invstd d data_off ss_off src ss eps _ dst0 ws0 hc,
      fwdInvstd]
    have hsum : fwdVarSum d data_off src c =
        ((loopNHW d.N d.H d.W).map fun p =>
          (src (data_off p.1 c p.2.1 p.2.2) - fwdMean d data_off src c) ^ 2).sum := by
      rw [fwdVarSum]
      simp only [pow_two]
    rw [hsum]
    show 1 / Real.sqrt _ = 1 / Real.sqrt _
    congr 2
    push_cast
    ring

theorem claim_C2_witness :
    (execute_forward ⟨1, 1, 1, 1⟩ (rowMajor4 ⟨1, 1, 1, 1⟩) (rowMajor2 1)
        (fun _ => (2 : ℝ)) (fun _ => 0) 0 (fun x => 1 / Real.sqrt x) true
        (fun _ => 0) (fun _ => 0)).2 0 =
      1 / ((1 * 1 * 1 : ℕ) : ℝ) *
        ((loopNHW 1 1 1).map fun p =>
          (fun _ => (2 : ℝ)) (rowMajor4 ⟨1, 1, 1, 1⟩ p.1 0 p.2.1 p.2.2)).sum ∧
    (execute_forward ⟨1, 1, 1, 1⟩ (rowMajor4 ⟨1, 1, 1, 1⟩) (rowMajor2 1)
        (fun _ => (2 : ℝ)) (fun _ => 0) 0 (fun x => 1 / Real.sqrt x) true
        (fun _ => 0) (fun _ => 0)).2 (1 + 0) =
      1 / Real.sqrt (1 / ((1 * 1 * 1 : ℕ) : ℝ) *
        ((loopNHW 1 1 1).map fun p =>
          ((fun _ => (2 : ℝ)) (rowMajor4 ⟨1, 1, 1, 1⟩ p.1 0 p.2.1 p.2.2) -
            fwdMean ⟨1, 1, 1, 1⟩ (rowMajor4 ⟨1, 1, 1, 1⟩) (fun _ => (2 : ℝ)) 0) ^ 2).sum +
        0) :=
  claim_C2 ⟨1, 1, 1, 1⟩ (rowMajor4 ⟨1, 1, 1, 1⟩) (rowMajor2 1)
    (fun _ => (2 : ℝ)) (fun _ => 0) (fun _ => 0) (fun _ => 0) 0
    (by decide) le_rfl 0 (by decide)

/-- C3: for every backward invocation with a non-null diff_scaleshift and a
valid diff_scaleshift descriptor, the output buffer holds
`diff_gamma[c] = invstd[c] · Σ (src - mean[c]) · diff_dst` at row 0 and
`diff_beta[c] = Σ diff_dst` at row 1, with `mean[c]` and `invstd[c]` read
from workspace rows 0 and 1 (`bwdMean`, `bwdInvstd`). -/
theorem claim_C3 (d : Dims) (data_off diff_data_off : ℕ → ℕ → ℕ → ℕ → ℕ)
    (ss_off dss_off : ℕ → ℕ → ℕ) (ws_off : ℕ → ℕ)
    (src ddst ss ws dsrc0 b0 : ℕ → α) (hinj2 : OffInj2 d.C dss_off)
    (hpos : 0 < d.N * d.H * d.W) (c : ℕ) (hc : c < d.C) :
    ∃ b, (execute_backward d data_off diff_data_off ss_off dss_off ws_off
        src ddst ss ws dsrc0 (some b0)).2 = some b ∧
      b (dss_off 0 c) =
        bwdInvstd d ws ws_off c *
          ((loopNHW d.N d.H d.W).map fun p =>
            (src (data_off p.1 c p.2.1 p.2.2) - bwdMean ws ws_off c) *
              ddst (diff_data_off p.1 c p.2.1 p.2.2)).sum ∧
      b (dss_off 1 c) =
        ((loopNHW d.N d.H d.W).map fun p =>
          ddst (diff_data_off p.1 c p.2.1 p.2.2)).sum := by
  refine ⟨_, execute_backward_snd_some d data_off diff_data_off ss_off dss_off
    ws_off src ddst ss ws dsrc0 b0, ?_, ?_⟩
  · rw [bwdDss_gamma d data_off diff_data_off dss_off ws_off src ddst ws b0
      hinj2 hc, bwdDiffGamma]
    ring
  · rw [bwdDss_beta d data_off diff_data_off dss_off ws_off src ddst ws b0
      hinj2 hc]
    rfl

theorem claim_C3_witness :
    ∃ b, (execute_backward ⟨1, 1, 1, 1⟩ (rowMajor4 ⟨1, 1, 1, 1⟩)
        (rowMajor4 ⟨1, 1, 1, 1⟩) (rowMajor2 1) (rowMajor2 1) (fun i => i)
        (fun _ => (3 : ℚ)) (fun _ => 2) (fun _ => 1) (fun _ => 5)
        (fun _ => 0) (some fun _ => 0)).2 = some b ∧
      b (rowMajor2 1 0 0) =
        bwdInvstd ⟨1, 1, 1, 1⟩ (fun _ => (5 : ℚ)) (fun i => i) 0 *
          ((loopNHW 1 1 1).map fun p =>
            ((fun _ => (3 : ℚ)) (rowMajor4 ⟨1, 1, 1, 1⟩ p.1 0 p.2.1 p.2.2) -
              bwdMean (fun _ => (5 : ℚ)) (fun i => i) 0) *
              (fun _ => (2 : ℚ)) (rowMajor4 ⟨1, 1, 1, 1⟩ p.1 0 p.2.1 p.2.2)).sum ∧
      b (rowMajor2 1 1 0) =
        ((loopNHW 1 1 1).map fun p =>
          (fun _ => (2 : ℚ)) (rowMajor4 ⟨1, 1, 1, 1⟩ p.1 0 p.2.1 p.2.2)).sum :=
  claim_C3 ⟨1, 1, 1, 1⟩ (rowMajor4 ⟨1, 1, 1, 1⟩) (rowMajor4 ⟨1, 1, 1, 1⟩)
    (rowMajor2 1) (rowMajor2 1) (fun i => i) (fun _ => 3) (fun _ => 2)
    (fun _ => 1) (fun _ => 5) (fun _ => 0) (fun _ => 0)
    (by decide) (by decide) 0 (by decide)

/-- C4: for every backward invocation with a valid diff_src descriptor and
N·H·W > 0, the input gradient satisfies
`diff_src[n,c,h,w] = gamma[c] · invstd[c] · (diff_dst − diff_beta/(N·H·W) −
(src - mean[c]) · diff_gamma[c] · invstd[c] / (N·H·W))`, with gamma read from
row 0 of scaleshift and diff_gamma, diff_beta the accumulation-pass values. -/
theorem claim_C4 (d : Dims) (data_off diff_data_off : ℕ → ℕ → ℕ → ℕ → ℕ)
    (ss_off dss_off : ℕ → ℕ → ℕ) (ws_off : ℕ → ℕ)
    (src ddst ss ws dsrc0 : ℕ → α) (dss0 : Option (ℕ → α))
    (hinj : OffInj4 d diff_data_off) (hpos : 0 < d.N * d.H * d.W)
    (n c h w : ℕ) (hn : n < d.N) (hc : c < d.C) (hh : h < d.H) (hw : w < d.W) :
    (execute_backward d data_off diff_data_off ss_off dss_off ws_off
        src ddst ss ws dsrc0 dss0).1 (diff_data_off n c h w) =
      ss (ss_off 0 c) * bwdInvstd d ws ws_off c *
        (ddst (diff_data_off n c h w) -
          bwdDiffBeta d diff_data_off ddst c / ((d.N * d.H * d.W : ℕ) : α) -
          (src (data_off n c h w) - bwdMean ws ws_off c) *
            bwdDiffGamma d data_off diff_data_off ws_off src ddst ws c *
            bwdInvstd d ws ws_off c / ((d.N * d.H * d.W : ℕ) : α)) := by
  rw [execute_backward_fst d data_off diff_data_off ss_off dss_off ws_off
    src ddst ss ws dsrc0 dss0 hinj hn hc hh hw, bwdSrcValue]
  push_cast
  ring

theorem claim_C4_witness :
    (execute_backward ⟨1, 1, 1, 1⟩ (rowMajor4 ⟨1, 1, 1, 1⟩)
        (rowMajor4 ⟨1, 1, 1, 1⟩) (rowMajor2 1) (rowMajor2 1) (fun i => i)
        (fun _ => (3 : ℚ)) (fun _ => 2) (fun _ => 1) (fun _ => 5)
        (fun _ => 0) none).1 (rowMajor4 ⟨1, 1, 1, 1⟩ 0 0 0 0) =
      (fun _ => (1 : ℚ)) (rowMajor2 1 0 0) *
        bwdInvstd ⟨1, 1, 1, 1⟩ (fun _ => (5 : ℚ)) (fun i => i) 0 *
        ((fun _ => (2 : ℚ)) (rowMajor4 ⟨1, 1, 1, 1⟩ 0 0 0 0) -
          bwdDiffBeta ⟨1, 1, 1, 1⟩ (rowMajor4 ⟨1, 1, 1, 1⟩) (fun _ => (2 : ℚ)) 0 /
            ((1 * 1 * 1 : ℕ) : ℚ) -
          ((fun _ => (3 : ℚ)) (rowMajor4 ⟨1, 1, 1, 1⟩ 0 0 0 0) -
            bwdMean (fun _ => (5 : ℚ)) (fun i => i) 0) *
            bwdDiffGamma ⟨1, 1, 1, 1⟩ (rowMajor4 ⟨1, 1, 1, 1⟩)
              (rowMajor4 ⟨1, 1, 1, 1⟩) (fun i => i) (fun _ => (3 : ℚ))
              (fun _ => 2) (fun _ => 5) 0 *
            bwdInvstd ⟨1, 1, 1, 1⟩ (fun _ => (5 : ℚ)) (fun i => i) 0 /
            ((1 * 1 * 1 : ℕ) : ℚ)) :=
  claim_C4 ⟨1, 1, 1, 1⟩ (rowMajor4 ⟨1, 1, 1, 1⟩) (rowMajor4 ⟨1, 1, 1, 1⟩)
    (rowMajor2 1) (rowMajor2 1) (fun i => i) (fun _ => 3) (fun _ => 2)
    (fun _ => 1) (fun _ => 5) (fun _ => 0) none
    (by decide) (by decide) 0 0 0 0 (by decide) (by decide) (by decide) (by decide)

/-- C5: running the backward kernel with a null diff_scaleshift produces
exactly the diff_src of the run with diff_scaleshift supplied (the
per-channel diff_gamma/diff_beta are still computed and used), and performs
no diff_scaleshift write. -/
theorem claim_C5 (d : Dims) (data_off diff_data_off : ℕ → ℕ → ℕ → ℕ → ℕ)
    (ss_off dss_off : ℕ → ℕ → ℕ) (ws_off : ℕ → ℕ)
    (src ddst ss ws dsrc0 b0 : ℕ → α) :
    (execute_backward d data_off diff_data_off ss_off dss_off ws_off
        src ddst ss ws dsrc0 none).1 =
      (execute_backward d data_off diff_data_off ss_off dss_off ws_off
        src ddst ss ws dsrc0 (some b0)).1 ∧
    (execute_backward d data_off diff_data_off ss_off dss_off ws_off
        src ddst ss ws dsrc0 none).2 = none :=
  ⟨execute_backward_fst_dss_indep d data_off diff_data_off ss_off dss_off
      ws_off src ddst ss ws dsrc0 none (some b0),
    execute_backward_snd_none d data_off diff_data_off ss_off dss_off ws_off
      src ddst ss ws dsrc0⟩

/-- C6: in training mode (workspace pointer non-null) the workspace ends
with `mean[c]` at row-0 offset `c` and `invstd[c]` at row-1 offset `C + c`
for every channel, and no other workspace location is modified; in inference
mode (null workspace) no workspace write occurs and dst is produced
identically. -/
theorem claim_C6 (d : Dims) (data_off : ℕ → ℕ → ℕ → ℕ → ℕ)
    (ss_off : ℕ → ℕ → ℕ) (src ss dst0 ws0 : ℕ → α) (eps : α)
    (invsqrt : α → α) :
    (∀ c < d.C,
      (execute_forward d data_off ss_off src ss eps invsqrt true dst0 ws0).2 c =
          fwdMean d data_off src c ∧
        (execute_forward d data_off ss_off src ss eps invsqrt true dst0 ws0).2
            (d.C + c) =
          fwdInvstd d data_off src eps invsqrt c) ∧
    (∀ i, (∀ c < d.C, i ≠ c ∧ i ≠ d.C + c) →
      (execute_forward d data_off ss_off src ss eps invsqrt true dst0 ws0).2 i =
        ws0 i) ∧
    (execute_forward d data_off ss_off src ss eps invsqrt false dst0 ws0).2 =
      ws0 ∧
    (execute_forward d data_off ss_off src ss eps invsqrt false dst0 ws0).1 =
      (execute_forward d data_off ss_off src ss eps invsqrt true dst0 ws0).1 :=
  ⟨fun c hc =>
      ⟨execute_forward_ws_mean d data_off ss_off src ss eps invsqrt dst0 ws0 hc,
        execute_forward_ws_invstd d data_off ss_off src ss eps invsqrt dst0 ws0 hc⟩,
    fun i hi =>
      execute_forward_ws_frame d data_off ss_off src ss eps invsqrt dst0 ws0 hi,
    execute_forward_ws_inference d data_off ss_off src ss eps invsqrt dst0 ws0,
    execute_forward_fst_mode d data_off ss_off src ss eps invsqrt false true
      dst0 ws0⟩

theorem claim_C6_witness :
    ((execute_forward ⟨1, 1, 1, 1⟩ (rowMajor4 ⟨1, 1, 1, 1⟩) (rowMajor2 1)
        (fun _ => (7 : ℚ)) (fun _ => 1) 0 (fun x => x) true
        (fun _ => 0) (fun _ => 0)).2 0 =
      fwdMean ⟨1, 1, 1, 1⟩ (rowMajor4 ⟨1, 1, 1, 1⟩) (fun _ => (7 : ℚ)) 0) ∧
    ((execute_forward ⟨1, 1, 1, 1⟩ (rowMajor4 ⟨1, 1, 1, 1⟩) (rowMajor2 1)
        (fun _ => (7 : ℚ)) (fun _ => 1) 0 (fun x => x) true
        (fun _ => 0) (fun _ => 0)).2 5 = (fun _ => (0 : ℚ)) 5) ∧
    ((execute_forward ⟨1, 1, 1, 1⟩ (rowMajor4 ⟨1, 1, 1, 1⟩) (rowMajor2 1)
        (fun _ => (7 : ℚ)) (fun _ => 1) 0 (fun x => x) false
        (fun _ => 0) (fun _ => 0)).2 = (fun _ => (0 : ℚ))) ∧
    ((execute_forward ⟨1, 1, 1, 1⟩ (rowMajor4 ⟨1, 1, 1, 1⟩) (rowMajor2 1)
        (fun _ => (7 : ℚ)) (fun _ => 1) 0 (fun x => x) false
        (fun _ => 0) (fun _ => 0)).1 =
      (execute_forward ⟨1, 1, 1, 1⟩ (rowMajor4 ⟨1, 1, 1, 1⟩) (rowMajor2 1)
        (fun _ => (7 : ℚ)) (fun _ => 1) 0 (fun x => x) true
        (fun _ => 0) (fun _ => 0)).1) := by
  have h := claim_C6 ⟨1, 1, 1, 1⟩ (rowMajor4 ⟨1, 1, 1, 1⟩) (rowMajor2 1)
    (fun _ => (7 : ℚ)) (fun _ => 1) (fun _ => 0) (fun _ => 0) 0 (fun x => x)
  exact ⟨(h.1 0 (by decide)).1, h.2.1 5 (by decide), h.2.2.1, h.2.2.2⟩

/-- C7: for a forward invocation over ℝ with eps > 0 and a channel whose src
slice is the constant k across all (n,h,w): the computed mean is k, the
computed variance is 0, the stored statistic is `1/√eps`, and every output
element of the channel equals `shift[c]`. -/
theorem claim_C7 (d : Dims) (data_off : ℕ → ℕ → ℕ → ℕ → ℕ)
    (ss_off : ℕ → ℕ → ℕ) (src ss dst0 ws0 : ℕ → ℝ) (eps k : ℝ) (tr : Bool)
    (hinj : OffInj4 d data_off) (hpos : 0 < d.N * d.H * d.W) (heps : 0 < eps)
    (c : ℕ) (hc : c < d.C)
    (hk : ∀ n < d.N, ∀ h < d.H, ∀ w < d.W, src (data_off n c h w) = k) :
    fwdMean d data_off src c = k ∧
    fwdVarSum d data_off src c / ((d.W * d.H * d.N : ℕ) : ℝ) = 0 ∧
    (execute_forward d data_off ss_off src ss eps (fun x => 1 / Real.sqrt x)
        true dst0 ws0).2 (d.C + c) = 1 / Real.sqrt eps ∧
    ∀ n < d.N, ∀ h < d.H, ∀ w < d.W,
      (execute_forward d data_off ss_off src ss eps (fun x => 1 / Real.sqrt x)
          tr dst0 ws0).1 (data_off n c h w) = ss (ss_off 1 c) := by
  have h0 : d.N ≠ 0 ∧ d.H ≠ 0 ∧ d.W ≠ 0 := by
    refine ⟨?_, ?_, ?_⟩ <;> rintro h0 <;> rw [h0] at hpos <;> simp at hpos
  have hlen : (loopNHW d.N d.H d.W).length = d.N * (d.H * d.W) := by
    rw [loopNHW, List.length_product, List.length_product, List.length_range,
      List.length_range, List.length_range]
  have hmean : fwdMean d data_off src c = k := by
    rw [fwdMean]
    have hconst : ((loopNHW d.N d.H d.W).map fun p =>
        src (data_off p.1 c p.2.1 p.2.2)) =
        (loopNHW d.N d.H d.W).map fun _ => k := by
      refine List.map_congr_left ?_
      intro p hp
      rw [mem_loopNHW] at hp
      exact hk p.1 hp.1 p.2.1 hp.2.1 p.2.2 hp.2.2
    rw [hconst, List.map_const', List.sum_replicate, hlen, nsmul_eq_mul]
    have hN : (d.N : ℝ) ≠ 0 := Nat.cast_ne_zero.mpr h0.1
    have hH : (d.H : ℝ) ≠ 0 := Nat.cast_ne_zero.mpr h0.2.1
    have hW : (d.W : ℝ) ≠ 0 := Nat.cast_ne_zero.mpr h0.2.2
    push_cast
    field_simp
    ring
  have hvar : fwdVarSum d data_off src c = 0 := by
    rw [fwdVarSum]
    have hconst : ((loopNHW d.N d.H d.W).map fun p =>
        (fun m => m * m) (src (data_off p.1 c p.2.1 p.2.2) -
          fwdMean d data_off src c)) =
        (loopNHW d.N d.H d.W).map fun _ => (0 : ℝ) := by
      refine List.map_congr_left ?_
      intro p hp
      rw [mem_loopNHW] at hp
      rw [hk p.1 hp.1 p.2.1 hp.2.1 p.2.2 hp.2.2, hmean]
      ring
    rw [hconst, List.map_const', List.sum_replicate, smul_zero]
  refine ⟨hmean, by rw [hvar, zero_div], ?_, ?_⟩
  · rw [execute_forward_ws_invstd d data_off ss_off src ss eps _ dst0 ws0 hc,
      fwdInvstd, hvar, zero_div, zero_add]
  · intro n hn h hh w hw
    rw [execute_forward_fst d data_off ss_off src ss eps
      (fun x => 1 / Real.sqrt x) tr dst0 ws0 hinj hn hc hh hw, fwdValue,
      hk n hn h hh w hw, hmean]
    ring

theorem claim_C7_witness :
    fwdMean ⟨1, 1, 1, 1⟩ (rowMajor4 ⟨1, 1, 1, 1⟩) (fun _ => (5 : ℝ)) 0 = 5 ∧
    fwdVarSum ⟨1, 1, 1, 1⟩ (rowMajor4 ⟨1, 1, 1, 1⟩) (fun _ => (5 : ℝ)) 0 /
      ((1 * 1 * 1 : ℕ) : ℝ) = 0 ∧
    (execute_forward ⟨1, 1, 1, 1⟩ (rowMajor4 ⟨1, 1, 1, 1⟩) (rowMajor2 1)
        (fun _ => (5 : ℝ)) (fun _ => 2) 1 (fun x => 1 / Real.sqrt x) true
        (fun _ => 0) (fun _ => 0)).2 (1 + 0) = 1 / Real.sqrt 1 ∧
    (execute_forward ⟨1, 1, 1, 1⟩ (rowMajor4 ⟨1, 1, 1, 1⟩) (rowMajor2 1)
        (fun _ => (5 : ℝ)) (fun _ => 2) 1 (fun x => 1 / Real.sqrt x) true
        (fun _ => 0) (fun _ => 0)).1 (rowMajor4 ⟨1, 1, 1, 1⟩ 0 0 0 0) =
      (fun _ => (2 : ℝ)) (rowMajor2 1 1 0) := by
  have h := claim_C7 ⟨1, 1, 1, 1⟩ (rowMajor4 ⟨1, 1, 1, 1⟩) (rowMajor2 1)
    (fun _ => (5 : ℝ)) (fun _ => 2) (fun _ => 0) (fun _ => 0) 1 5 true
    (by decide) (by decide) one_pos 0 (by decide)
    (fun n hn h hh w hw => rfl)
  exact ⟨h.1, h.2.1, h.2.2.1, h.2.2.2 0 (by decide) 0 (by decide) 0 (by decide)⟩

/-! ### Schedule invariance: the parallel-for is deterministic -/

theorem execute_forward_sched_perm (d : Dims) (data_off : ℕ → ℕ → ℕ → ℕ → ℕ)
    (ss_off : ℕ → ℕ → ℕ) (src ss : ℕ → α) (eps : α) (invsqrt : α → α)
    (tr : Bool) (cs : List ℕ) (dst0 ws0 : ℕ → α)
    (hperm : cs.Perm (List.range d.C)) (hinj : OffInj4 d data_off) :
    execute_forward_sched d data_off ss_off src ss eps invsqrt tr cs dst0 ws0 =
      execute_forward d data_off ss_off src ss eps invsqrt tr dst0 ws0 := by
  rw [execute_forward, execute_forward_sched_eq, execute_forward_sched_eq]
  simp only [Prod.mk.injEq]
  constructor
  · exact (applyWrites_perm
      (fwdWrites d data_off ss_off src ss eps invsqrt (List.range d.C))
      (fwdWrites d data_off ss_off src ss eps invsqrt cs) dst0
      (hperm.symm.flatMap_right _)
      (by rw [fwdWrites_keys]; exact idx_keys_nodup d data_off hinj)).symm
  · cases tr with
    | false => rfl
    | true =>
      exact (applyWrites_perm
        (fwdWsWrites d data_off src eps invsqrt true (List.range d.C))
        (fwdWsWrites d data_off src eps invsqrt true cs) ws0
        (hperm.symm.flatMap_right _)
        (fwdWsWrites_keys_nodup d data_off src eps invsqrt)).symm

theorem execute_backward_sched_perm (d : Dims)
    (data_off diff_data_off : ℕ → ℕ → ℕ → ℕ → ℕ) (ss_off dss_off : ℕ → ℕ → ℕ)
    (ws_off : ℕ → ℕ) (src ddst ss ws : ℕ → α) (cs : List ℕ) (dsrc0 : ℕ → α)
    (dss0 : Option (ℕ → α)) (hperm : cs.Perm (List.range d.C))
    (hinjd : OffInj4 d diff_data_off) (hinj2 : OffInj2 d.C dss_off) :
    execute_backward_sched d data_off diff_data_off ss_off dss_off ws_off
        src ddst ss ws cs dsrc0 dss0 =
      execute_backward d data_off diff_data_off ss_off dss_off ws_off
        src ddst ss ws dsrc0 dss0 := by
  rw [execute_backward, execute_backward_sched_eq, execute_backward_sched_eq]
  simp only [Prod.mk.injEq]
  constructor
  · exact (applyWrites_perm
      (bwdWrites d data_off diff_data_off ss_off ws_off src ddst ss ws
        (List.range d.C))
      (bwdWrites d data_off diff_data_off ss_off ws_off src ddst ss ws cs) dsrc0
      (hperm.symm.flatMap_right _)
      (by rw [bwdWrites_keys]; exact idx_keys_nodup d diff_data_off hinjd)).symm
  · have hfun : applyWrites (bwdDssWrites d data_off diff_data_off dss_off
        ws_off src ddst ws cs) =
        applyWrites (bwdDssWrites d data_off diff_data_off dss_off ws_off
          src ddst ws (List.range d.C)) := by
      funext b
      exact applyWrites_perm _ _ b (hperm.flatMap_right _)
        (by
          have := bwdDssWrites_keys_nodup d data_off diff_data_off dss_off
            ws_off src ddst ws hinj2
          exact (((hperm.symm.flatMap_right _).map Prod.fst).nodup_iff).mp this)
    rw [hfun]

/-! ### Composing a descriptor with a channel permutation -/

theorem OffInj4_comp (d : Dims) (off : ℕ → ℕ → ℕ → ℕ → ℕ) (π : ℕ → ℕ)
    (hinj : OffInj4 d off) (hmaps : ∀ c < d.C, π c < d.C)
    (hπ : ∀ c₁ < d.C, ∀ c₂ < d.C, π c₁ = π c₂ → c₁ = c₂) :
    OffInj4 d fun n c h w => off n (π c) h w := by
  intro q₁ hq₁ q₂ hq₂ heq
  obtain ⟨c₁, n₁, h₁, w₁⟩ := q₁
  obtain ⟨c₂, n₂, h₂, w₂⟩ := q₂
  rw [mem_idxCNHW] at hq₁ hq₂
  have h₁' : ((π c₁, n₁, h₁, w₁) : ℕ × ℕ × ℕ × ℕ) ∈ idxCNHW d :=
    mem_idxCNHW.mpr ⟨hmaps c₁ hq₁.1, hq₁.2⟩
  have h₂' : ((π c₂, n₂, h₂, w₂) : ℕ × ℕ × ℕ × ℕ) ∈ idxCNHW d :=
    mem_idxCNHW.mpr ⟨hmaps c₂ hq₂.1, hq₂.2⟩
  have hres := hinj _ h₁' _ h₂' heq
  simp only [Prod.mk.injEq] at hres ⊢
  exact ⟨hπ c₁ hq₁.1 c₂ hq₂.1 hres.1, hres.2⟩

theorem OffInj2_comp (C : ℕ) (off : ℕ → ℕ → ℕ) (π : ℕ → ℕ)
    (hinj : OffInj2 C off) (hmaps : ∀ c < C, π c < C)
    (hπ : ∀ c₁ < C, ∀ c₂ < C, π c₁ = π c₂ → c₁ = c₂) :
    OffInj2 C fun r c => off r (π c) := by
  intro r₁ hr₁ c₁ hc₁ r₂ hr₂ c₂ hc₂ heq
  have hres := hinj r₁ hr₁ (π c₁) (hmaps c₁ hc₁) r₂ hr₂ (π c₂) (hmaps c₂ hc₂) heq
  exact ⟨hres.1, hπ c₁ hc₁ c₂ hc₂ hres.2⟩

/-! ### Claims C8-C10 -/

/-- C8: channel-permutation equivariance.  A channel-permuted input tensor is
the same physical buffer read through the descriptor composed with π on the
channel coordinate; the permuted backward workspace is a buffer `wsP` holding
channel π(c)'s statistics at channel slot c.  Running either kernel on the
permuted inputs yields exactly the π-permutation of the original outputs:
the permuted run's logical (n, c, h, w) output equals the original run's
logical (n, π c, h, w) output, the forward workspace rows satisfy
`wsπ[c] = ws[π c]`, and the diff_scaleshift rows of the permuted run hold at
logical slot (r, c) the original value at (r, π c) — no cross-channel
leakage. -/
theorem claim_C8 (d : Dims) (data_off diff_data_off : ℕ → ℕ → ℕ → ℕ → ℕ)
    (ss_off dss_off : ℕ → ℕ → ℕ) (ws_off : ℕ → ℕ)
    (src ss dst0 ws0 ddst ws wsP dsrc0 b0 : ℕ → α) (eps : α)
    (invsqrt : α → α) (tr : Bool) (dss0 : Option (ℕ → α)) (π : ℕ → ℕ)
    (hmaps : ∀ c < d.C, π c < d.C)
    (hπ : ∀ c₁ < d.C, ∀ c₂ < d.C, π c₁ = π c₂ → c₁ = c₂)
    (hinj : OffInj4 d data_off) (hinjd : OffInj4 d diff_data_off)
    (hinj2 : OffInj2 d.C dss_off)
    (hwsP : ∀ c < d.C, wsP (ws_off 0 + c) = ws (ws_off 0 + π c) ∧
      wsP (ws_off d.C + c) = ws (ws_off d.C + π c)) :
    (∀ c < d.C, ∀ n < d.N, ∀ h < d.H, ∀ w < d.W,
      (execute_forward d (fun n c h w => data_off n (π c) h w)
          (fun r c => ss_off r (π c)) src ss eps invsqrt tr dst0 ws0).1
          (data_off n (π c) h w) =
        (execute_forward d data_off ss_off src ss eps invsqrt tr dst0 ws0).1
          (data_off n (π c) h w)) ∧
    (∀ c < d.C,
      (execute_forward d (fun n c h w => data_off n (π c) h w)
          (fun r c => ss_off r (π c)) src ss eps invsqrt true dst0 ws0).2 c =
        (execute_forward d data_off ss_off src ss eps invsqrt true dst0 ws0).2
          (π c) ∧
      (execute_forward d (fun n c h w => data_off n (π c) h w)
          (fun r c => ss_off r (π c)) src ss eps invsqrt true dst0 ws0).2
          (d.C + c) =
        (execute_forward d data_off ss_off src ss eps invsqrt true dst0 ws0).2
          (d.C + π c)) ∧
    (∀ c < d.C, ∀ n < d.N, ∀ h < d.H, ∀ w < d.W,
      (execute_backward d (fun n c h w => data_off n (π c) h w)
          (fun n c h w => diff_data_off n (π c) h w)
          (fun r c => ss_off r (π c)) (fun r c => dss_off r (π c)) ws_off
          src ddst ss wsP dsrc0 dss0).1 (diff_data_off n (π c) h w) =
        (execute_backward d data_off diff_data_off ss_off dss_off ws_off
          src ddst ss ws dsrc0 dss0).1 (diff_data_off n (π c) h w)) ∧
    (∀ c < d.C, ∃ bπ b,
      (execute_backward d (fun n c h w => data_off n (π c) h w)
          (fun n c h w => diff_data_off n (π c) h w)
          (fun r c => ss_off r (π c)) (fun r c => dss_off r (π c)) ws_off
          src ddst ss wsP dsrc0 (some b0)).2 = some bπ ∧
        (execute_backward d data_off diff_data_off ss_off dss_off ws_off
          src ddst ss ws dsrc0 (some b0)).2 = some b ∧
        bπ (dss_off 0 (π c)) = b (dss_off 0 (π c)) ∧
        bπ (dss_off 1 (π c)) = b (dss_off 1 (π c))) := by
  have hinjπ := OffInj4_comp d data_off π hinj hmaps hπ
  have hinjdπ := OffInj4_comp d diff_data_off π hinjd hmaps hπ
  have hinj2π := OffInj2_comp d.C dss_off π hinj2 hmaps hπ
  refine ⟨?_, ?_, ?_, ?_⟩
  · intro c hc n hn h hh w hw
    exact (execute_forward_fst d (fun n c h w => data_off n (π c) h w)
        (fun r c => ss_off r (π c)) src ss eps invsqrt tr dst0 ws0 hinjπ
        hn hc hh hw).trans
      (execute_forward_fst d data_off ss_off src ss eps invsqrt tr dst0 ws0
        hinj hn (hmaps c hc) hh hw).symm
  · intro c hc
    exact ⟨(execute_forward_ws_mean d (fun n c h w => data_off n (π c) h w)
        (fun r c => ss_off r (π c)) src ss eps invsqrt dst0 ws0 hc).trans
        (execute_forward_ws_mean d data_off ss_off src ss eps invsqrt dst0 ws0
          (hmaps c hc)).symm,
      (execute_forward_ws_invstd d (fun n c h w => data_off n (π c) h w)
        (fun r c => ss_off r (π c)) src ss eps invsqrt dst0 ws0 hc).trans
        (execute_forward_ws_invstd d data_off ss_off src ss eps invsqrt dst0 ws0
          (hmaps c hc)).symm⟩
  · have hval : ∀ c, c < d.C → ∀ n h w : ℕ,
        bwdSrcValue d (fun n c h w => data_off n (π c) h w)
          (fun n c h w => diff_data_off n (π c) h w)
          (fun r c => ss_off r (π c)) ws_off src ddst ss wsP c n h w =
        bwdSrcValue d data_off diff_data_off ss_off ws_off src ddst ss ws
          (π c) n h w := by
      intro c hc n h w
      simp only [bwdSrcValue, bwdDiffGamma, bwdDiffBeta, bwdMean, bwdInvstd]
      rw [(hwsP c hc).1, (hwsP c hc).2]
    intro c hc n hn h hh w hw
    exact (execute_backward_fst d (fun n c h w => data_off n (π c) h w)
        (fun n c h w => diff_data_off n (π c) h w) (fun r c => ss_off r (π c))
        (fun r c => dss_off r (π c)) ws_off src ddst ss wsP dsrc0 dss0 hinjdπ
        hn hc hh hw).trans
      ((hval c hc n h w).trans
        (execute_backward_fst d data_off diff_data_off ss_off dss_off ws_off
          src ddst ss ws dsrc0 dss0 hinjd hn (hmaps c hc) hh hw).symm)
  · intro c hc
    have hgval : bwdDiffGamma d (fun n c h w => data_off n (π c) h w)
        (fun n c h w => diff_data_off n (π c) h w) ws_off src ddst wsP c =
        bwdDiffGamma d data_off diff_data_off ws_off src ddst ws (π c) := by
      simp only [bwdDiffGamma, bwdMean, bwdInvstd]
      rw [(hwsP c hc).1, (hwsP c hc).2]
    refine ⟨_, _,
      execute_backward_snd_some d (fun n c h w => data_off n (π c) h w)
        (fun n c h w => diff_data_off n (π c) h w) (fun r c => ss_off r (π c))
        (fun r c => dss_off r (π c)) ws_off src ddst ss wsP dsrc0 b0,
      execute_backward_snd_some d data_off diff_data_off ss_off dss_off ws_off
        src ddst ss ws dsrc0 b0, ?_, ?_⟩
    · exact (bwdDss_gamma d (fun n c h w => data_off n (π c) h w)
          (fun n c h w => diff_data_off n (π c) h w)
          (fun r c => dss_off r (π c)) ws_off src ddst wsP b0 hinj2π hc).trans
        (hgval.trans
          (bwdDss_gamma d data_off diff_data_off dss_off ws_off src ddst ws b0
            hinj2 (hmaps c hc)).symm)
    · exact (bwdDss_beta d (fun n c h w => data_off n (π c) h w)
          (fun n c h w => diff_data_off n (π c) h w)
          (fun r c => dss_off r (π c)) ws_off src ddst wsP b0 hinj2π hc).trans
        (bwdDss_beta d data_off diff_data_off dss_off ws_off src ddst ws b0
          hinj2 (hmaps c hc)).symm

theorem claim_C8_witness :
    ((execute_forward ⟨1, 2, 1, 1⟩
        (fun n c h w => rowMajor4 ⟨1, 2, 1, 1⟩ n (1 - c) h w)
        (fun r c => rowMajor2 2 r (1 - c)) (fun i => (i : ℚ)) (fun _ => 1) 0
        (fun x => x) false (fun _ => 0) (fun _ => 0)).1
        (rowMajor4 ⟨1, 2, 1, 1⟩ 0 (1 - 0) 0 0) =
      (execute_forward ⟨1, 2, 1, 1⟩ (rowMajor4 ⟨1, 2, 1, 1⟩) (rowMajor2 2)
        (fun i => (i : ℚ)) (fun _ => 1) 0 (fun x => x) false
        (fun _ => 0) (fun _ => 0)).1 (rowMajor4 ⟨1, 2, 1, 1⟩ 0 (1 - 0) 0 0)) ∧
    ((execute_forward ⟨1, 2, 1, 1⟩
        (fun n c h w => rowMajor4 ⟨1, 2, 1, 1⟩ n (1 - c) h w)
        (fun r c => rowMajor2 2 r (1 - c)) (fun i => (i : ℚ)) (fun _ => 1) 0
        (fun x => x) true (fun _ => 0) (fun _ => 0)).2 0 =
      (execute_forward ⟨1, 2, 1, 1⟩ (rowMajor4 ⟨1, 2, 1, 1⟩) (rowMajor2 2)
        (fun i => (i : ℚ)) (fun _ => 1) 0 (fun x => x) true
        (fun _ => 0) (fun _ => 0)).2 (1 - 0)) := by
  have h := claim_C8 ⟨1, 2, 1, 1⟩ (rowMajor4 ⟨1, 2, 1, 1⟩)
    (rowMajor4 ⟨1, 2, 1, 1⟩) (rowMajor2 2) (rowMajor2 2) (fun i => i)
    (fun i => (i : ℚ)) (fun _ => 1) (fun _ => 0) (fun _ => 0) (fun _ => 2)
    (fun i => (i : ℚ))
    (fun i => if i = 0 then 1 else if i = 1 then 0 else
      if i = 2 then 3 else if i = 3 then 2 else 0)
    (fun _ => 0) (fun _ => 0) 0 (fun x => x) false none (fun c => 1 - c)
    (by decide) (by decide) (by decide) (by decide) (by decide) (by decide)
  exact ⟨h.1 0 (by decide) 0 (by decide) 0 (by decide) 0 (by decide),
    (h.2.1 0 (by decide)).1⟩

/-- C9 counterexample: the workspace writes of the forward kernel are not
routed through an injected `(2, C)` workspace mapping.  With the valid
column-major mapping `(r, c) ↦ 2c + r` on a C = 2 invocation, the
spec-modelled variant (`execute_forward_specws`) stores channel 0's inverse
standard deviation at physical offset 1, while the source kernel stores
channel 1's mean there, and on this input the two values differ (5 vs 1). -/
theorem claim_C9_counterexample :
    OffInj2 2 (fun r c => 2 * c + r) ∧
    (execute_forward ⟨1, 2, 1, 1⟩ (rowMajor4 ⟨1, 2, 1, 1⟩) (rowMajor2 2)
        (fun i => if i = 0 then (3 : ℝ) else 5) (fun _ => 1) 1
        (fun x => 1 / Real.sqrt x) true (fun _ => 0) (fun _ => 0)).2 1 ≠
      (execute_forward_specws ⟨1, 2, 1, 1⟩ (rowMajor4 ⟨1, 2, 1, 1⟩)
        (rowMajor2 2) (fun r c => 2 * c + r)
        (fun i => if i = 0 then (3 : ℝ) else 5) (fun _ => 1) 1
        (fun x => 1 / Real.sqrt x) true (fun _ => 0) (fun _ => 0)).2 1 := by
  refine ⟨by decide, ?_⟩
  have hlhs : (execute_forward ⟨1, 2, 1, 1⟩ (rowMajor4 ⟨1, 2, 1, 1⟩)
      (rowMajor2 2) (fun i => if i = 0 then (3 : ℝ) else 5) (fun _ => 1) 1
      (fun x => 1 / Real.sqrt x) true (fun _ => 0) (fun _ => 0)).2 1 = 5 := by
    rw [execute_forward_ws_mean ⟨1, 2, 1, 1⟩ (rowMajor4 ⟨1, 2, 1, 1⟩)
      (rowMajor2 2) (fun i => if i = 0 then (3 : ℝ) else 5) (fun _ => 1) 1
      (fun x => 1 / Real.sqrt x) (fun _ => 0) (fun _ => 0) (by norm_num)]
    norm_num [fwdMean, loopNHW, SProd.sprod, List.product, List.range_succ,
      rowMajor4]
  have hrhs : (execute_forward_specws ⟨1, 2, 1, 1⟩ (rowMajor4 ⟨1, 2, 1, 1⟩)
      (rowMajor2 2) (fun r c => 2 * c + r)
      (fun i => if i = 0 then (3 : ℝ) else 5) (fun _ => 1) 1
      (fun x => 1 / Real.sqrt x) true (fun _ => 0) (fun _ => 0)).2 1 = 1 := by
    rw [execute_forward_specws]
    norm_num [List.range_succ, fwdChannelSpecWs, Function.update, fwdInvstd,
      fwdVarSum, fwdMean, loopNHW, SProd.sprod, List.product, rowMajor4]
  rw [hlhs, hrhs]
  norm_num

theorem claim_C9 (d : Dims) (data_off : ℕ → ℕ → ℕ → ℕ → ℕ)
    (ss_off : ℕ → ℕ → ℕ) (src ss dst0 ws0 : ℕ → α) (eps : α)
    (invsqrt : α → α) (tr : Bool) :
    execute_forward d data_off ss_off src ss eps invsqrt tr dst0 ws0 =
      execute_forward_specws d data_off ss_off (rowMajor2 d.C) src ss eps
        invsqrt tr dst0 ws0 := by
  rw [execute_forward, execute_forward_sched, execute_forward_specws]
  have hbody : (fun (st : (ℕ → α) × (ℕ → α)) c =>
      fwdChannel d data_off ss_off src ss eps invsqrt tr c st) =
      fun st c =>
        fwdChannelSpecWs d data_off ss_off (rowMajor2 d.C) src ss eps invsqrt
          tr c st := by
    funext st c
    cases tr with
    | false => rfl
    | true =>
      simp only [fwdChannel, fwdChannelSpecWs, rowMajor2]
      norm_num
  rw [hbody]

/-- C10: both kernels are deterministic and schedule-oblivious: under valid
(channel-injective) descriptors, any two completion orders of the parallel
channel loop (any two permutations of `0, …, C-1`) produce identical
(dst, ws) and identical (diff_src, diff_scaleshift). -/
theorem claim_C10 (d : Dims) (data_off diff_data_off : ℕ → ℕ → ℕ → ℕ → ℕ)
    (ss_off dss_off : ℕ → ℕ → ℕ) (ws_off : ℕ → ℕ)
    (src ss dst0 ws0 ddst ws dsrc0 : ℕ → α) (dss0 : Option (ℕ → α))
    (eps : α) (invsqrt : α → α) (tr : Bool)
    (hinj : OffInj4 d data_off) (hinjd : OffInj4 d diff_data_off)
    (hinj2 : OffInj2 d.C dss_off) (cs₁ cs₂ : List ℕ)
    (h₁ : cs₁.Perm (List.range d.C)) (h₂ : cs₂.Perm (List.range d.C)) :
    execute_forward_sched d data_off ss_off src ss eps invsqrt tr cs₁ dst0 ws0 =
      execute_forward_sched d data_off ss_off src ss eps invsqrt tr cs₂
        dst0 ws0 ∧
    execute_backward_sched d data_off diff_data_off ss_off dss_off ws_off
        src ddst ss ws cs₁ dsrc0 dss0 =
      execute_backward_sched d data_off diff_data_off ss_off dss_off ws_off
        src ddst ss ws cs₂ dsrc0 dss0 :=
  ⟨(execute_forward_sched_perm d data_off ss_off src ss eps invsqrt tr cs₁
      dst0 ws0 h₁ hinj).trans
    (execute_forward_sched_perm d data_off ss_off src ss eps invsqrt tr cs₂
      dst0 ws0 h₂ hinj).symm,
    (execute_backward_sched_perm d data_off diff_data_off ss_off dss_off
      ws_off src ddst ss ws cs₁ dsrc0 dss0 h₁ hinjd hinj2).trans
    (execute_backward_sched_perm d data_off diff_data_off ss_off dss_off
      ws_off src ddst ss ws cs₂ dsrc0 dss0 h₂ hinjd hinj2).symm⟩

theorem claim_C10_witness :
    execute_forward_sched ⟨1, 2, 1, 1⟩ (rowMajor4 ⟨1, 2, 1, 1⟩) (rowMajor2 2)
        (fun i => (i : ℚ)) (fun _ => 1) 0 (fun x => x) true [1, 0]
        (fun _ => 0) (fun _ => 0) =
      execute_forward_sched ⟨1, 2, 1, 1⟩ (rowMajor4 ⟨1, 2, 1, 1⟩) (rowMajor2 2)
        (fun i => (i : ℚ)) (fun _ => 1) 0 (fun x => x) true [0, 1]
        (fun _ => 0) (fun _ => 0) ∧
    execute_backward_sched ⟨1, 2, 1, 1⟩ (rowMajor4 ⟨1, 2, 1, 1⟩)
        (rowMajor4 ⟨1, 2, 1, 1⟩) (rowMajor2 2) (rowMajor2 2) (fun i => i)
        (fun i => (i : ℚ)) (fun _ => 2) (fun _ => 1) (fun _ => 3) [1, 0]
        (fun _ => 0) none =
      execute_backward_sched ⟨1, 2, 1, 1⟩ (rowMajor4 ⟨1, 2, 1, 1⟩)
        (rowMajor4 ⟨1, 2, 1, 1⟩) (rowMajor2 2) (rowMajor2 2) (fun i => i)
        (fun i => (i : ℚ)) (fun _ => 2) (fun _ => 1) (fun _ => 3) [0, 1]
        (fun _ => 0) none :=
  claim_C10 ⟨1, 2, 1, 1⟩ (rowMajor4 ⟨1, 2, 1, 1⟩) (rowMajor4 ⟨1, 2, 1, 1⟩)
    (rowMajor2 2) (rowMajor2 2) (fun i => i) (fun i => (i : ℚ)) (fun _ => 1)
    (fun _ => 0) (fun _ => 0) (fun _ => 2) (fun _ => 3) (fun _ => 0) none
    0 (fun x => x) true (by decide) (by decide) (by decide) [1, 0] [0, 1]
    (by decide) (by decide)

end RefBatchNorm
